import Mathlib

/-!
Verification development for the retrieval core of the go-chat-backend
repository: the in-memory paragraph search index (package `internal/search`)
and the retrieval/answer-decision logic of `MessageService.retrieve`
(package `internal/services`).

The Go code is shallowly embedded: strings are Lean `String` (a list of
characters), Go `float64` scores are modelled as exact rationals `ℚ`,
Go `int` is `Int`, Go maps used as sets are modelled as deduplicated lists,
and the fallible readers of the index constructors are modelled as
`Except String String` values.  Character classes (`\p{L}`, `\p{N}`,
`unicode.IsUpper`, `strings.ToLower`, ...) are modelled on the ASCII range,
which is the range exercised by the corpus and by every test of the
repository.  Go's `sort.SliceStable` is modelled by `List.insertionSort`
with the non-strict comparator `fun a b => ¬ less b a`, which produces the
same (stable) permutation; the unstable `sort.Slice` call in `retrieve` is
modelled by the same deterministic stable sort, a legitimate refinement of
Go's unspecified tie order.
-/

attribute [local semireducible] Rat.add Rat.mul Rat.inv Rat.sub

/-! ## Character classes (ASCII models of the Go/RE2 classes) -/

/-- Model of `\p{L}` restricted to ASCII: `unicode letter`. -/
def isLetterCh (c : Char) : Bool := c.isAlpha

/-- Model of `\p{N}` restricted to ASCII: a decimal digit. -/
def isDigitCh (c : Char) : Bool := c.isDigit

/-- Letters-or-digits, the class `[\p{L}\p{N}]` of `alnumRE`/`qwordRE`. -/
def isAlnumCh (c : Char) : Bool := isLetterCh c || isDigitCh c

/-- The whitespace set of Go's `unicode.IsSpace` restricted to ASCII,
used by `strings.TrimSpace` and `strings.Fields`. -/
def isGoSpace (c : Char) : Bool :=
  c = ' ' || c = '\t' || c = '\n' || c = '\x0b' || c = '\x0c' || c = '\r'

/-- The RE2 character class `\s`, which is exactly `[\t\n\f\r ]`. -/
def isRE2Space (c : Char) : Bool :=
  c = ' ' || c = '\t' || c = '\n' || c = '\x0c' || c = '\r'

/-- The characters collapsed by `search.normalizeWhitespace`: space, tab
and carriage return (newlines are preserved there). -/
def isNWS (c : Char) : Bool := c = ' ' || c = '\t' || c = '\r'

/-- ASCII model of `strings.ToLower` / `unicode.ToLower` on one character:
the twenty-six ASCII capitals map to their lowercase forms, every other
character is unchanged. -/
def lowerCh (c : Char) : Char :=
  if c = 'A' then 'a' else if c = 'B' then 'b' else if c = 'C' then 'c'
  else if c = 'D' then 'd' else if c = 'E' then 'e' else if c = 'F' then 'f'
  else if c = 'G' then 'g' else if c = 'H' then 'h' else if c = 'I' then 'i'
  else if c = 'J' then 'j' else if c = 'K' then 'k' else if c = 'L' then 'l'
  else if c = 'M' then 'm' else if c = 'N' then 'n' else if c = 'O' then 'o'
  else if c = 'P' then 'p' else if c = 'Q' then 'q' else if c = 'R' then 'r'
  else if c = 'S' then 's' else if c = 'T' then 't' else if c = 'U' then 'u'
  else if c = 'V' then 'v' else if c = 'W' then 'w' else if c = 'X' then 'x'
  else if c = 'Y' then 'y' else if c = 'Z' then 'z' else c

/-! ## Basic string helpers shared by both packages -/

/-- Model of `strings.ToLower` (ASCII range). -/
def lowerStr (s : String) : String := String.mk (s.data.map lowerCh)

/-- Trim a character class from both ends of a character list. -/
def trimClass (p : Char → Bool) (l : List Char) : List Char :=
  ((l.dropWhile p).reverse.dropWhile p).reverse

/-- Model of `strings.TrimSpace`. -/
def trimSpace (s : String) : String := String.mk (trimClass isGoSpace s.data)

/-- Substring test on character lists; model of `strings.Contains`
(the empty needle is contained in everything, as in Go). -/
def listContainsSub (hay needle : List Char) : Bool :=
  match hay with
  | [] => needle.isEmpty
  | _ :: rest => needle.isPrefixOf hay || listContainsSub rest needle

/-- Model of `strings.Contains s sub`. -/
def containsStr (s sub : String) : Bool := listContainsSub s.data sub.data

/-- Model of `strings.Split(s, sep)` for a one-character separator
(empty chunks are kept, exactly as in Go). -/
def splitOnCh (sep : Char) : List Char → List (List Char)
  | [] => [[]]
  | c :: rest =>
    if c = sep then [] :: splitOnCh sep rest
    else
      match splitOnCh sep rest with
      | [] => [[c]]
      | g :: gs => (c :: g) :: gs

/-- Worker for `strings.Fields`: split on runs of whitespace, no empties. -/
def fieldsAux : List Char → List Char → List (List Char)
  | [], acc => if acc.isEmpty then [] else [acc.reverse]
  | c :: rest, acc =>
    if isGoSpace c then
      if acc.isEmpty then fieldsAux rest [] else acc.reverse :: fieldsAux rest []
    else fieldsAux rest (c :: acc)

/-- Model of `strings.Fields`. -/
def fields (s : String) : List String := (fieldsAux s.data []).map String.mk

/-- Model of `strings.Join(l, " ")`. -/
def joinSpace (l : List String) : String := String.intercalate " " l

/-- Go byte size of one character when encoded in UTF-8. -/
def charUtf8Size (c : Char) : Nat :=
  if c.toNat < 0x80 then 1 else if c.toNat < 0x800 then 2
  else if c.toNat < 0x10000 then 3 else 4

/-- Model of Go's `len(s)` on a string: the UTF-8 byte length. -/
def utf8Len (s : String) : Nat := (s.data.map charUtf8Size).sum

/-! ## Package `internal/search`: tokenizer -/

/-- Worker for the matches of the regex of and `wordRE`, namely
`\p{L}+\p{N}*`: maximal runs of letters followed by optional digits.
The Bool flag records whether the current token is in its digit phase. -/
def wordTokensAux : List Char → Bool → List Char → List (List Char)
  | [], _, acc => if acc.isEmpty then [] else [acc.reverse]
  | c :: rest, inDig, acc =>
    if acc.isEmpty then
      if isLetterCh c then wordTokensAux rest false [c] else wordTokensAux rest false []
    else if inDig then
      if isDigitCh c then wordTokensAux rest true (c :: acc)
      else if isLetterCh c then acc.reverse :: wordTokensAux rest false [c]
      else acc.reverse :: wordTokensAux rest false []
    else
      if isLetterCh c then wordTokensAux rest false (c :: acc)
      else if isDigitCh c then wordTokensAux rest true (c :: acc)
      else acc.reverse :: wordTokensAux rest false []

/-- Model of `wordRE.FindAllString(s, -1)` on an already-lowercased list. -/
def wordTokens (l : List Char) : List (List Char) := wordTokensAux l false []

/-- Model of `search.tokenize`: lowercase, extract `\p{L}+\p{N}*` tokens,
drop stopwords, and return the resulting token set (a deduplicated list,
standing for the Go `map[string]struct{}`). -/
def tokenize (s : String) (stop : List String) : List String :=
  (((wordTokens (lowerStr s).data).map String.mk).filter
    (fun w => ¬ stop.contains w)).dedup

/-- Model of `search.normalizeWhitespace` (the flag is `prevSpace`):
collapse runs of space, tab and carriage return into one space. -/
def normalizeWhitespaceAux : List Char → Bool → List Char
  | [], _ => []
  | c :: rest, prev =>
    if isNWS c then
      if prev then normalizeWhitespaceAux rest true
      else ' ' :: normalizeWhitespaceAux rest true
    else c :: normalizeWhitespaceAux rest false

/-- Model of `search.normalizeWhitespace`. -/
def normalizeWhitespace (s : String) : String :=
  String.mk (normalizeWhitespaceAux s.data false)

/-! ## Package `internal/search`: configuration and index -/

/-- Model of the `search.config` struct. -/
structure Config where
  minParagraphRunes : Int
  stopwords : List String
  maxDocs : Int
deriving Repr, DecidableEq

/-- Model of `search.defaultConfig`. -/
def defaultConfig : Config := { minParagraphRunes := 40, stopwords := [], maxDocs := 0 }

/-- Model of the functional options of the `search` package. -/
inductive IdxOption where
  | withMinParagraphRunes (n : Int)
  | withStopwords (ws : List String)
  | withMaxDocs (n : Int)
deriving Repr, DecidableEq

/-- Model of applying one functional option to a config. -/
def applyOption (c : Config) : IdxOption → Config
  | .withMinParagraphRunes n => if 0 ≤ n then { c with minParagraphRunes := n } else c
  | .withStopwords ws =>
    let m := ((ws.map (fun w => lowerStr (trimSpace w))).filter (fun w => w ≠ "")).dedup
    if m ≠ [] then { c with stopwords := m } else c
  | .withMaxDocs n => if 0 < n then { c with maxDocs := n } else c

/-- Fold the option list over the default config, as the constructors do. -/
def applyOptions (opts : List IdxOption) : Config := opts.foldl applyOption defaultConfig

/-- Model of the `search.doc` struct. -/
structure Doc where
  text : String
  tokens : List String
  tLen : Nat
deriving Repr, DecidableEq

/-- Model of the `search.index` struct. -/
structure Idx where
  cfg : Config
  docs : List Doc
deriving Repr, DecidableEq

/-- Model of `search.buildIndex`'s paragraph loop, carrying the running
document `count` used for the `maxDocs` cut-off. -/
def buildIndexAux (cfg : Config) : List String → Int → List Doc
  | [], _ => []
  | raw :: rest, count =>
    let t := trimSpace (normalizeWhitespace raw)
    if t = "" then buildIndexAux cfg rest count
    else if 0 < cfg.minParagraphRunes ∧ (t.length : Int) < cfg.minParagraphRunes then
      buildIndexAux cfg rest count
    else
      let toks := tokenize t cfg.stopwords
      if toks = [] then buildIndexAux cfg rest count
      else
        let d : Doc := { text := t, tokens := toks, tLen := toks.length }
        if 0 < cfg.maxDocs ∧ cfg.maxDocs ≤ count + 1 then [d]
        else d :: buildIndexAux cfg rest (count + 1)

/-- Model of `search.buildIndex`. -/
def buildIndex (paragraphs : List String) (cfg : Config) : Idx :=
  { cfg := cfg, docs := buildIndexAux cfg paragraphs 0 }

/-- Model of `search.NewIndexFromStrings`. -/
def NewIndexFromStrings (paragraphs : List String) (opts : List IdxOption) : Idx :=
  buildIndex paragraphs (applyOptions opts)

/-! ## Package `internal/search`: TopK -/

/-- Model of the `search.Result` struct, with scores as exact rationals. -/
structure Result where
  snippet : String
  score : ℚ
deriving Repr, DecidableEq

/-- Model of `search.overlap`: the size of the intersection of two token
sets (both arguments are deduplicated lists). -/
def overlapCount (a b : List String) : Nat := (a.filter (fun t => b.contains t)).length

/-- Model of the anonymous `scored` struct inside `TopK`. -/
structure Scored where
  snippet : String
  score : ℚ
  lenRunes : Nat
deriving Repr, DecidableEq

/-- Model of the negation of `TopK`'s `sort.SliceStable` strict comparator:
`scoredLe a b` holds when `a` need not come strictly after `b`, i.e.
score descending, then rune length ascending, then snippet ascending. -/
def scoredLe (a b : Scored) : Prop :=
  b.score < a.score ∨
    (a.score = b.score ∧
      (a.lenRunes < b.lenRunes ∨ (a.lenRunes = b.lenRunes ∧ a.snippet ≤ b.snippet)))

instance : DecidableRel scoredLe := fun a b =>
  inferInstanceAs (Decidable (b.score < a.score ∨
    (a.score = b.score ∧
      (a.lenRunes < b.lenRunes ∨ (a.lenRunes = b.lenRunes ∧ a.snippet ≤ b.snippet)))))

instance : IsTotal Scored scoredLe := by
  constructor
  intro a b
  rcases lt_trichotomy a.score b.score with h | h | h
  · exact Or.inr (Or.inl h)
  · rcases lt_trichotomy a.lenRunes b.lenRunes with h2 | h2 | h2
    · exact Or.inl (Or.inr ⟨h, Or.inl h2⟩)
    · rcases le_total a.snippet b.snippet with h3 | h3
      · exact Or.inl (Or.inr ⟨h, Or.inr ⟨h2, h3⟩⟩)
      · exact Or.inr (Or.inr ⟨h.symm, Or.inr ⟨h2.symm, h3⟩⟩)
    · exact Or.inr (Or.inr ⟨h.symm, Or.inl h2⟩)
  · exact Or.inl (Or.inl h)

instance : IsTrans Scored scoredLe := by
  constructor
  intro a b c hab hbc
  rcases hab with hab | ⟨hab, hab2⟩
  · rcases hbc with hbc | ⟨hbc, _⟩
    · exact Or.inl (lt_trans hbc hab)
    · exact Or.inl (hbc ▸ hab)
  · rcases hbc with hbc | ⟨hbc, hbc2⟩
    · exact Or.inl (lt_of_lt_of_le hbc (le_of_eq hab.symm))
    · refine Or.inr ⟨hab.trans hbc, ?_⟩
      rcases hab2 with h2 | ⟨h2, h3⟩
      · rcases hbc2 with h4 | ⟨h4, _⟩
        · exact Or.inl (lt_trans h2 h4)
        · exact Or.inl (h4 ▸ h2)
      · rcases hbc2 with h4 | ⟨h4, h5⟩
        · exact Or.inl (h2 ▸ h4)
        · exact Or.inr ⟨h2.trans h4, le_trans h3 h5⟩

/-- Model of the per-document body of `TopK`'s scoring loop: skip on zero
overlap, on a non-positive union, and on a non-positive Jaccard score. -/
def scoreDoc (qTokens : List String) (d : Doc) : Option Scored :=
  let over := overlapCount qTokens d.tokens
  if over = 0 then none
  else
    let union : ℚ := (qTokens.length : ℚ) + (d.tLen : ℚ) - (over : ℚ)
    if union ≤ 0 then none
    else
      let score : ℚ := (over : ℚ) / union
      if score ≤ 0 then none
      else some { snippet := d.text, score := score, lenRunes := d.text.length }

/-- The scored candidate buffer built by `TopK`'s loop. -/
def topkBuf (i : Idx) (q : String) : List Scored :=
  i.docs.filterMap (scoreDoc (tokenize q i.cfg.stopwords))

/-- Model of `index.TopK`.  `k` is a Go `int`; a non-positive `k`
defaults to 3.  Go's stable sort under the strict comparator is realised
as `insertionSort` under the non-strict `scoredLe`. -/
def TopK (i : Idx) (q : String) (k : Int) : List Result :=
  if i.docs.length = 0 then []
  else if trimSpace q = "" then []
  else
    let k := if k ≤ 0 then 3 else k
    if (tokenize q i.cfg.stopwords).length = 0 then []
    else
      let buf := topkBuf i q
      if buf.length = 0 then []
      else
        let sorted := List.insertionSort scoredLe buf
        let k := if (buf.length : Int) < k then (buf.length : Int) else k
        (sorted.take k.toNat).map (fun x => { snippet := x.snippet, score := x.score })

/-! ## Package `internal/search`: paragraph splitting and constructors -/

/-- Index of the last newline inside a character list, if any. -/
def lastNewlineIdx : List Char → Option Nat
  | [] => none
  | c :: rest =>
    match lastNewlineIdx rest with
    | some j => some (j + 1)
    | none => if c = '\n' then some 0 else none

/-- Worker for splitting on the regex `\n\s*\n` (leftmost matches, with
the greedy `\s*` absorbing everything up to the last newline of the
whitespace run), as `paraSplitRE.Split` does.  The fuel argument only
makes the recursion structural: every step strictly shortens the list, so
with fuel equal to the list length the zero-fuel case is unreachable. -/
def paraSplitAux (fuel : Nat) (l : List Char) (acc : List Char) : List (List Char) :=
  match fuel, l with
  | 0, _ => [acc.reverse]
  | _, [] => [acc.reverse]
  | fuel + 1, c :: rest =>
    if c = '\n' then
      let run := rest.takeWhile isRE2Space
      match lastNewlineIdx run with
      | some j => acc.reverse :: paraSplitAux fuel (rest.drop (j + 1)) []
      | none => paraSplitAux fuel rest (c :: acc)
    else paraSplitAux fuel rest (c :: acc)

/-- Model of `paraSplitRE.Split(raw, -1)`. -/
def paraSplitList (l : List Char) (acc : List Char) : List (List Char) :=
  paraSplitAux l.length l acc

/-- Model of `search.splitParasFromBytes`: split on blank-line boundaries,
trim each chunk, and drop the empty ones. -/
def splitParas (s : String) : List String :=
  ((paraSplitList s.data []).map (fun cs => trimSpace (String.mk cs))).filter
    (fun t => t ≠ "")

/-- Model of `search.NewIndexFromReader`.  The reader is modelled by an
`Except` value: `.error e` is a reader whose `io.ReadAll` fails with `e`,
`.ok all` is a reader yielding the bytes `all`.  On error the constructor
still hands back a non-nil empty index together with the error. -/
def NewIndexFromReader (input : Except String String) (opts : List IdxOption) :
    Idx × Option String :=
  let cfg := applyOptions opts
  match input with
  | .error e => ({ cfg := cfg, docs := [] }, some e)
  | .ok all => (buildIndex (splitParas all) cfg, none)

/-- Model of `search.NewIndexFromMarkdown`.  `os.ReadFile` is modelled by
an `Except` value; on a read error the constructor returns an empty index
built on the plain default config (options are not applied on this path,
exactly as in the Go code). -/
def NewIndexFromMarkdown (readResult : Except String String) (opts : List IdxOption) :
    Idx × Option String :=
  match readResult with
  | .error e => ({ cfg := defaultConfig, docs := [] }, some e)
  | .ok b => NewIndexFromReader (.ok b) opts

/-! ## Package `internal/services`: token and phrase helpers -/

/-- Worker for the matches of `alnumRE`/`qwordRE` (`[\p{L}\p{N}]+`):
maximal runs of letters-or-digits. -/
def alnumAux : List Char → List Char → List (List Char)
  | [], acc => if acc.isEmpty then [] else [acc.reverse]
  | c :: rest, acc =>
    if isAlnumCh c then alnumAux rest (c :: acc)
    else if acc.isEmpty then alnumAux rest []
    else acc.reverse :: alnumAux rest []

/-- Model of `alnumRE.FindAllString(s, -1)` (and of `qwordRE`, which is
the same regex), as strings. -/
def alnumTokens (s : String) : List String := (alnumAux s.data []).map String.mk

/-- Model of the stopword map `qStop` of `chat_service.go`. -/
def qStop : List String :=
  ["the", "a", "an", "and", "or", "of", "to", "in",
   "is", "are", "for", "on", "with", "by", "from",
   "at", "as", "that", "this", "it", "be", "was", "were",
   "how", "much", "more", "likely", "do", "does", "what", "which",
   "new", "brands", "products", "find", "out", "about"]

/-- Model of the `genericContentDrop` map built inside `retrieve`. -/
def genericContentDrop : List String :=
  ["interested", "interest", "interests",
   "percentage", "percent", "share",
   "likely", "likelihood", "compared", "comparison", "average", "overall",
   "people", "person",
   "new", "brands", "products", "find", "out", "about"]

/-- The ASCII apostrophe character (written via its code point). -/
def asciiQuote : Char := Char.ofNat 39

/-- Closing quote matching an opening quote, for the four alternatives of
`quotedPhraseRE`. -/
def closerFor (c : Char) : Option Char :=
  if c = '"' then some '"'
  else if c = '‘' then some '’'
  else if c = '“' then some '”'
  else if c = asciiQuote then some asciiQuote
  else none

/-- Scan for the first occurrence of `close`, returning the content before
it and the remainder after it. -/
def splitAtClose (close : Char) : List Char → Option (List Char × List Char)
  | [] => none
  | c :: rest =>
    if c = close then some ([], rest)
    else
      match splitAtClose close rest with
      | some (pre, post) => some (c :: pre, post)
      | none => none

/-- Worker for `quotedPhraseRE.FindAllStringSubmatch`: the contents of
the quoted substrings, scanned left to right, each alternative requiring
a non-empty body before its matching closing quote.  The fuel argument
only makes the recursion structural: every step strictly shortens the
list (`splitAtClose` hands back a strict suffix), so with fuel equal to
the list length the zero-fuel case is unreachable. -/
def quotedPhrasesAux (fuel : Nat) (l : List Char) : List (List Char) :=
  match fuel, l with
  | 0, _ => []
  | _, [] => []
  | fuel + 1, c :: rest =>
    match closerFor c with
    | some cl =>
      match splitAtClose cl rest with
      | some (content, post) =>
        if content = [] then quotedPhrasesAux fuel rest
        else content :: quotedPhrasesAux fuel post
      | none => quotedPhrasesAux fuel rest
    | none => quotedPhrasesAux fuel rest

/-- Model of the list of quoted-phrase matches of `quotedPhraseRE`. -/
def quotedPhrasesList (l : List Char) : List (List Char) := quotedPhrasesAux l.length l

/-- Model of the quoted-phrase extraction (`quotedPhraseRE` matches). -/
def quotedPhrases (s : String) : List String := (quotedPhrasesList s.data).map String.mk

/-- Model of `services.isNumber`: only letters, periods, commas and percent
signs besides digits, and at least one digit. -/
def isNumber (s : String) : Bool :=
  s.data.all (fun r => r.isDigit || r.isAlpha || r = '.' || r = ',' || r = '%') &&
    s.data.any (fun r => r.isDigit)

/-- Model of `services.isCapitalized`: first rune is upper case. -/
def isCapitalized (s : String) : Bool :=
  match s.data with
  | [] => false
  | c :: _ => c.isUpper

/-! ## Package `internal/services`: query terms and relevance -/

/-- Model of the `services.queryTerms` struct; the two Go maps are
deduplicated lists, `entitySlice` is the iteration list. -/
structure queryTerms where
  allTokens : List String
  entities : List String
  entitySlice : List String
deriving Repr, DecidableEq

/-- Model of `services.extractQueryTerms`. -/
def extractQueryTerms (prompt : String) : queryTerms :=
  let p := trimSpace prompt
  let lower := lowerStr p
  let tokens := ((alnumTokens lower).filter (fun t => ¬ qStop.contains t)).dedup
  let quoted := (quotedPhrases p).filterMap (fun m =>
    let ph := trimSpace m
    if ph ≠ "" then some (lowerStr ph) else none)
  let capNumLong := (alnumTokens p).filterMap (fun raw =>
    let lc := lowerStr raw
    if qStop.contains lc then none
    else if isNumber raw || isCapitalized raw || 6 ≤ utf8Len lc then some lc
    else none)
  let entities := (quoted ++ capNumLong).dedup
  { allTokens := tokens, entities := entities, entitySlice := entities }

/-- Model of `services.overlapRelevance`: token Jaccard between the query
tokens and the snippet tokens, plus a +0.06 boost per entity phrase
contained in the snippet, capped at +0.24, the sum clamped to 1. -/
def overlapRelevance (snippet : String) (q : queryTerms) : ℚ :=
  if q.allTokens = [] then 0
  else
    let snippetLower := lowerStr snippet
    let sTokens := (alnumTokens snippetLower).dedup
    let inter := (q.allTokens.filter (fun t => sTokens.contains t)).length
    let union : Int := (sTokens.length : Int) + (q.allTokens.length : Int) - (inter : Int)
    if union = 0 then 0
    else
      let j : ℚ := (inter : ℚ) / (union : ℚ)
      let boost : ℚ :=
        (6 : ℚ) / 100 *
          ((q.entitySlice.filter (fun e => e ≠ "" && containsStr snippetLower e)).length : ℚ)
      let boost := if (24 : ℚ) / 100 < boost then (24 : ℚ) / 100 else boost
      let score := j + boost
      if 1 < score then 1 else score

/-- Model of `services.simplifyQuery`: keyword-only version of the prompt,
falling back to the full token list when everything is a stopword. -/
def simplifyQuery (s : String) : String :=
  let toks := alnumTokens (lowerStr s)
  if toks = [] then ""
  else
    let keep := toks.filter (fun t => ¬ qStop.contains t)
    if keep = [] then joinSpace toks else joinSpace keep

/-! ## Package `internal/services`: markdown table cleanup -/

theorem dropWhile_length_le {α : Type} (p : α → Bool) (l : List α) :
    (l.dropWhile p).length ≤ l.length := by
  induction l with
  | nil => simp
  | cons a l ih => by_cases h : p a <;> simp [List.dropWhile, h] <;> omega

/-- Trim the RE2 class `\s` from both ends of a character list (used to
mirror the `\s*` anchors of `mdTableRow` and `mdSepRow`). -/
def trimRE2 (l : List Char) : List Char := trimClass isRE2Space l

/-- Model of `mdTableRow.MatchString`, i.e. `^\s*\|.*\|\s*$` (where `.`
does not match a newline). -/
def mdTableRowB (s : String) : Bool :=
  match trimRE2 s.data with
  | c :: d :: rest =>
    c = '|' && (d :: rest).getLast? = some '|' && (d :: rest).dropLast.all (fun x => x ≠ '\n')
  | _ => false

/-- Drop one leading colon, for the `:?` of `mdSepRow`. -/
def dropLeadColon : List Char → List Char
  | ':' :: r => r
  | l => l

/-- Cell body test for `mdSepRow`: optional colons around at least three
dashes. -/
def sepCellOk (cs : List Char) : Bool :=
  let u := dropLeadColon (trimRE2 cs)
  let u := (dropLeadColon u.reverse).reverse
  decide (3 ≤ u.length) && u.all (fun c => c = '-')

/-- Model of `mdSepRow.MatchString`, i.e.
`^\s*\|?\s*:?-{3,}:?\s*(\|\s*:?-{3,}:?\s*)+\|?\s*$`: an optional outer
pair of pipes around at least two `|`-separated dash cells. -/
def mdSepRowB (s : String) : Bool :=
  let t := trimRE2 s.data
  let t1 := match t with
    | c :: r => if c = '|' then r else t
    | [] => t
  let t2 := match t1.getLast? with
    | some c => if c = '|' then t1.dropLast else t1
    | none => t1
  let cells := splitOnCh '|' t2
  decide (2 ≤ cells.length) && cells.all sepCellOk

/-- Model of `strings.TrimPrefix(row, "|")`. -/
def trimPrefixPipe (s : String) : String :=
  match s.data with
  | c :: rest => if c = '|' then String.mk rest else s
  | [] => s

/-- Model of `strings.TrimSuffix(row, "|")`. -/
def trimSuffixPipe (s : String) : String :=
  match s.data.getLast? with
  | some c => if c = '|' then String.mk s.data.dropLast else s
  | none => s

/-- Model of the body-row processing of `stripMarkdownTablesToLines`:
strip the outer pipes, split on `|`, trim the cells, join with spaces. -/
def stripTableRow (row : String) : String :=
  let row := trimSuffixPipe (trimPrefixPipe row)
  let cells := (splitOnCh '|' row.data).map (fun cs => trimSpace (String.mk cs))
  joinSpace cells

/-- Worker for the line loop of `services.stripMarkdownTablesToLines`.
The fuel argument only makes the recursion structural: every step
strictly shortens the list, so with fuel equal to the list length the
zero-fuel case is unreachable. -/
def stripMDAuxF (fuel : Nat) (lines : List String) : List String :=
  match fuel, lines with
  | 0, _ => []
  | _, [] => []
  | fuel + 1, l :: rest =>
    let line := trimSpace l
    let isTable := mdTableRowB line &&
      (match rest with
       | l2 :: _ => mdSepRowB (trimSpace l2)
       | [] => false)
    if isTable then
      let afterHS := rest.tail
      let body := afterHS.takeWhile (fun x => mdTableRowB (trimSpace x))
      let after := afterHS.dropWhile (fun x => mdTableRowB (trimSpace x))
      (body.filterMap (fun r =>
        let cleaned := stripTableRow (trimSpace r)
        if cleaned ≠ "" then some cleaned else none)) ++ stripMDAuxF fuel after
    else if line ≠ "" then line :: stripMDAuxF fuel rest
    else stripMDAuxF fuel rest

/-- Model of the line loop of `services.stripMarkdownTablesToLines`. -/
def stripMDAux (lines : List String) : List String := stripMDAuxF lines.length lines

/-- Model of `services.stripMarkdownTablesToLines`. -/
def stripMarkdownTablesToLines (s : String) : String :=
  if s = "" then ""
  else
    String.intercalate "\n"
      (stripMDAux ((splitOnCh '\n' s.data).map String.mk))

/-- Model of the `"\r\n" → "\n"` replacement of `collapseWhitespaceLines`. -/
def replaceCRLF : List Char → List Char
  | '\r' :: '\n' :: rest => '\n' :: replaceCRLF rest
  | c :: rest => c :: replaceCRLF rest
  | [] => []

/-- Model of `services.collapseWhitespaceLines`: trim each line, collapse
internal whitespace, drop empty lines. -/
def collapseWhitespaceLines (s : String) : String :=
  if s = "" then ""
  else
    let s1 := String.mk (replaceCRLF s.data)
    let raw := (splitOnCh '\n' s1.data).map String.mk
    let out := raw.filterMap (fun ln =>
      let parts := fields ln
      if parts = [] then none else some (joinSpace parts))
    String.intercalate "\n" out

/-! ## Package `internal/services`: content terms and strong entities -/

/-- Model of the content-term construction in `retrieve` (step 3 of its
comment): non-stopword prompt tokens of byte length ≥ 5 and long quoted
phrases, minus the generic drop list, with capitalized words removed. -/
def contentTermsOf (prompt : String) : List String :=
  let lowerPrompt := lowerStr prompt
  let base := (alnumTokens lowerPrompt).filterMap (fun tok =>
    if qStop.contains tok then none
    else if 5 ≤ utf8Len tok then
      if genericContentDrop.contains tok then none else some tok
    else none)
  let quoted := (quotedPhrases prompt).filterMap (fun m =>
    let p := lowerStr (trimSpace m)
    if 5 ≤ utf8Len p then
      if genericContentDrop.contains p then none else some p
    else none)
  let caps := (alnumTokens prompt).filterMap (fun raw =>
    if isCapitalized raw then some (lowerStr raw) else none)
  ((base ++ quoted).dedup).filter (fun t => ¬ caps.contains t)

/-- Model of the compound-capitalized scan in `retrieve`: adjacent
capitalized bigrams/trigrams and the special `"Gen" + single capital`
case, lowercased. -/
def compoundPhrases : List String → List String
  | [] => []
  | [_] => []
  | a :: b :: rest =>
    let genPart :=
      if lowerStr a = "gen" ∧ utf8Len b = 1 ∧ isCapitalized b then
        [lowerStr (a ++ " " ++ b)]
      else []
    let capPart :=
      if isCapitalized a ∧ isCapitalized b then
        [lowerStr (a ++ " " ++ b)] ++
          (match rest with
           | c :: _ =>
             if isCapitalized c then [lowerStr (a ++ " " ++ b ++ " " ++ c)] else []
           | [] => [])
      else []
    genPart ++ capPart ++ compoundPhrases (b :: rest)

/-- Model of the strong-entity set built in `retrieve`: number/long
entities from `q.entities`, compound capitalized phrases, and single
capitalized words of rune length ≥ 4. -/
def strongEntitiesOf (prompt : String) (q : queryTerms) : List String :=
  let base := q.entities.filter (fun e => isNumber e || 5 ≤ utf8Len e)
  let toks := alnumTokens prompt
  let compounds := (compoundPhrases toks).filter (fun ph => trimSpace ph ≠ "")
  let singles := toks.filterMap (fun w =>
    if isCapitalized w && decide (4 ≤ w.length) then some (lowerStr w) else none)
  (base ++ compounds ++ singles).dedup

/-- Model of `countStrongHits`: the strong entities contained (as
substrings, case-insensitively) in a snippet. -/
def strongHits (strong : List String) (snippet : String) : List String :=
  let sn := lowerStr snippet
  strong.filter (fun e => e ≠ "" && containsStr sn e)

/-- Model of the `requiredHits` switch in `retrieve`. -/
def requiredHitsOf (strong : List String) : Nat :=
  if 2 ≤ strong.length then 2 else if strong.length = 1 then 1 else 0

/-- Model of the `containsAny` closure in `retrieve`. -/
def containsAny (sLower : String) (terms : List String) : Bool :=
  terms.any (fun t => t ≠ "" && containsStr sLower t)

/-- Model of the batch maximum used to normalize index scores (0 is
replaced by 1, as in the Go code). -/
def maxScoreOf (results : List Result) : ℚ :=
  let m := results.foldl (fun acc r => if acc < r.score then r.score else acc) 0
  if m = 0 then 1 else m

/-- The strict floor of the one-strong-entity gate. -/
def strictFloor : ℚ := 20 / 100

/-- The lenient floor of the no-strong-entities gate. -/
def lenientFloor : ℚ := 10 / 100

/-- Model of the `cand` struct of `retrieve`. -/
structure Cand where
  text : String
  indexScore : ℚ
  overlapRel : ℚ
  combined : ℚ
  strongEntHit : List String
deriving Repr, DecidableEq

instance : Inhabited Cand := ⟨{ text := "", indexScore := 0, overlapRel := 0, combined := 0, strongEntHit := [] }⟩

/-- Model of the candidate-building loop body of `retrieve`: clean the
snippet, blend the scores, apply the content-term gate and the
strong-entity gate, and add the coverage tie-break bonus. -/
def mkCand (q : queryTerms) (contentTerms strong : List String) (requiredHits : Nat)
    (maxScore : ℚ) (r : Result) : Option Cand :=
  let clean := stripMarkdownTablesToLines (trimSpace r.snippet)
  if clean = "" then none
  else
    let sLower := lowerStr clean
    let ov := overlapRelevance clean q
    let ns := r.score / maxScore
    let combined := (1 : ℚ) / 2 * ns + (1 : ℚ) / 2 * ov
    if 0 < contentTerms.length ∧ ¬ containsAny sLower contentTerms then none
    else
      let hits := strongHits strong clean
      let hitCount := hits.length
      let pass : Bool :=
        if 2 ≤ requiredHits then decide (2 ≤ hitCount)
        else if requiredHits = 1 then decide (1 ≤ hitCount) || decide (strictFloor ≤ ov)
        else decide (lenientFloor ≤ ov) || decide (12 ≤ clean.length)
      if pass then
        let combined := if requiredHits < hitCount then combined + 3 / 100 else combined
        some { text := clean, indexScore := r.score, overlapRel := ov,
               combined := combined, strongEntHit := hits }
      else none

/-! ## Package `internal/services`: retrieve -/

/-- Model of the `MessageService` fields used by `retrieve`: the index is
an optional `TopK` capability (a nil interface is `none`), the threshold
is the configured acceptance threshold. -/
structure MessageService where
  index : Option (String → Int → List Result)
  threshold : ℚ

/-- The fixed decline reply of `retrieve`. -/
def declineMsg : String := "I can’t answer that from the provided data."

/-- Comparator for the `sort.Slice` call of `retrieve` (combined score
descending), as the non-strict relation of its stable realisation. -/
def candGE (a b : Cand) : Prop := b.combined ≤ a.combined

instance : DecidableRel candGE := fun a b =>
  inferInstanceAs (Decidable (b.combined ≤ a.combined))

instance : IsTotal Cand candGE :=
  ⟨fun a b => (le_total b.combined a.combined).elim Or.inl Or.inr⟩

instance : IsTrans Cand candGE := ⟨fun _ _ _ h1 h2 => le_trans h2 h1⟩

/-- The sorted survivor list (combined descending). -/
def sortCands (cands : List Cand) : List Cand := List.insertionSort candGE cands

/-- Model of the candidate fetch of `retrieve` (step 1): `TopK(prompt,10)`
with one retry on the simplified keyword query. -/
def retrieveResults (topk : String → Int → List Result) (prompt : String) : List Result :=
  let results := topk prompt 10
  if results = [] then
    let simplified := simplifyQuery prompt
    if simplified ≠ "" ∧ simplified ≠ prompt then topk simplified 10 else results
  else results

/-- The survivors of the gates of `retrieve` (steps 2-6), in result
order. -/
def retrievePipeline (topk : String → Int → List Result) (prompt : String) : List Cand :=
  let results := retrieveResults topk prompt
  let q := extractQueryTerms prompt
  let contentTerms := contentTermsOf prompt
  let strong := strongEntitiesOf prompt q
  let required := requiredHitsOf strong
  let maxScore := maxScoreOf results
  results.filterMap (mkCand q contentTerms strong required maxScore)

/-- The effective acceptance threshold (0.20 when the configured one is
not positive). -/
def effThreshold (s : MessageService) : ℚ :=
  if s.threshold ≤ 0 then 20 / 100 else s.threshold

/-- Model of the second-candidate merge of `retrieve` (step 9): append the
runner-up when its combined score is within 90% of the top and it covers
every strong entity the top matched. -/
def mergeOut (top : Cand) (rest : List Cand) : String :=
  match rest with
  | [] => top.text
  | c1 :: _ =>
    if top.combined * (9 / 10) ≤ c1.combined ∧
        (∀ e ∈ top.strongEntHit, e ∈ c1.strongEntHit) then
      top.text ++ "\n" ++ c1.text
    else top.text

/-- Model of `MessageService.retrieve`. -/
def retrieve (s : MessageService) (prompt : String) : String × Option ℚ :=
  match s.index with
  | none => (declineMsg, none)
  | some topk =>
    if retrieveResults topk prompt = [] then (declineMsg, none)
    else
      match sortCands (retrievePipeline topk prompt) with
      | [] => (declineMsg, none)
      | top :: rest =>
        if top.indexScore < effThreshold s then (declineMsg, none)
        else (collapseWhitespaceLines (mergeOut top rest), some top.indexScore)

/-! ## Structural lemmas about `buildIndex` -/

theorem buildIndexAux_mem (cfg : Config) :
    ∀ (ps : List String) (count : Int) (d : Doc), d ∈ buildIndexAux cfg ps count →
      (∃ raw ∈ ps, d.text = trimSpace (normalizeWhitespace raw)) ∧
      d.tokens = tokenize d.text cfg.stopwords ∧
      d.tokens ≠ [] ∧ d.text ≠ "" ∧ d.tLen = d.tokens.length ∧
      (0 < cfg.minParagraphRunes → cfg.minParagraphRunes ≤ (d.text.length : Int)) := by
  intro ps
  induction ps with
  | nil => intro count d hd; simp [buildIndexAux] at hd
  | cons raw rest ih =>
    intro count d hd
    simp only [buildIndexAux] at hd
    split_ifs at hd with h1 h2 h3 h4
    · -- empty paragraph: recursive call
      obtain ⟨⟨r, hr, hr2⟩, h⟩ := ih count d hd
      exact ⟨⟨r, List.mem_cons_of_mem _ hr, hr2⟩, h⟩
    · -- too short: recursive call
      obtain ⟨⟨r, hr, hr2⟩, h⟩ := ih count d hd
      exact ⟨⟨r, List.mem_cons_of_mem _ hr, hr2⟩, h⟩
    · -- no tokens: recursive call
      obtain ⟨⟨r, hr, hr2⟩, h⟩ := ih count d hd
      exact ⟨⟨r, List.mem_cons_of_mem _ hr, hr2⟩, h⟩
    · -- maxDocs reached: singleton
      simp at hd
      subst hd
      refine ⟨⟨raw, List.mem_cons_self _ _, rfl⟩, rfl, h3, h1, rfl, ?_⟩
      intro hmin
      rcases not_and_or.mp h2 with h | h
      · exact absurd hmin h
      · show cfg.minParagraphRunes ≤ ((trimSpace (normalizeWhitespace raw)).length : Int)
        omega
    · -- stored and continue
      rcases List.mem_cons.mp hd with hd | hd
      · subst hd
        refine ⟨⟨raw, List.mem_cons_self _ _, rfl⟩, rfl, h3, h1, rfl, ?_⟩
        intro hmin
        rcases not_and_or.mp h2 with h | h
        · exact absurd hmin h
        · show cfg.minParagraphRunes ≤ ((trimSpace (normalizeWhitespace raw)).length : Int)
          omega
      · obtain ⟨⟨r, hr, hr2⟩, h⟩ := ih (count + 1) d hd
        exact ⟨⟨r, List.mem_cons_of_mem _ hr, hr2⟩, h⟩

theorem buildIndexAux_length (cfg : Config) (hmax : 0 < cfg.maxDocs) :
    ∀ (ps : List String) (count : Int), count < cfg.maxDocs →
      ((buildIndexAux cfg ps count).length : Int) ≤ cfg.maxDocs - count := by
  intro ps
  induction ps with
  | nil => intro count h; simp [buildIndexAux]; omega
  | cons raw rest ih =>
    intro count h
    simp only [buildIndexAux]
    split_ifs with h1 h2 h3 h4
    · exact le_trans (ih count h) (by omega)
    · exact le_trans (ih count h) (by omega)
    · exact le_trans (ih count h) (by omega)
    · simp; omega
    · have h5 : count + 1 < cfg.maxDocs := by
        rcases not_and_or.mp h4 with h' | h'
        · exact absurd hmax h'
        · omega
      have := ih (count + 1) h5
      simp only [List.length_cons]
      push_cast
      push_cast at this
      omega

/-- C9: every document stored by `buildIndex` has a non-empty token set and
trimmed, whitespace-normalized text of rune length at least
`minParagraphRunes` when that is positive, and the number of stored
documents never exceeds `maxDocs` when that is positive; empty, short, or
token-free paragraphs are never stored. -/
theorem C9_buildIndex_invariants :
    ∀ (ps : List String) (cfg : Config),
      (∀ d ∈ (buildIndex ps cfg).docs,
        d.tokens ≠ [] ∧
        (∃ raw ∈ ps, d.text = trimSpace (normalizeWhitespace raw)) ∧
        d.tokens = tokenize d.text cfg.stopwords ∧
        d.text ≠ "" ∧
        (0 < cfg.minParagraphRunes → cfg.minParagraphRunes ≤ (d.text.length : Int))) ∧
      (0 < cfg.maxDocs → ((buildIndex ps cfg).docs.length : Int) ≤ cfg.maxDocs) := by
  intro ps cfg
  constructor
  · intro d hd
    obtain ⟨hraw, htok, hne, hte, _, hmin⟩ := buildIndexAux_mem cfg ps 0 d hd
    exact ⟨hne, hraw, htok, hte, hmin⟩
  · intro hmax
    have := buildIndexAux_length cfg hmax ps 0 hmax
    simpa using this

/-- Witness for C9 at a concrete paragraph list and configuration. -/
theorem C9_buildIndex_invariants_witness :
    ({ text := "hello world", tokens := ["hello", "world"], tLen := 2 } : Doc).tokens ≠ [] ∧
    ((buildIndex ["  hello  world  ", "second one here"]
        { minParagraphRunes := 5, stopwords := [], maxDocs := 1 }).docs.length : Int) ≤ 1 := by
  refine ⟨?_, ?_⟩
  · exact ((C9_buildIndex_invariants ["  hello  world  ", "second one here"]
      { minParagraphRunes := 5, stopwords := [], maxDocs := 1 }).1 _ (by decide)).1
  · exact (C9_buildIndex_invariants ["  hello  world  ", "second one here"]
      { minParagraphRunes := 5, stopwords := [], maxDocs := 1 }).2 (by decide)

/-- C10: on an unreadable source both constructors return the I/O error
together with a non-nil index handle holding zero documents, and every
`TopK` call on that handle yields nil. -/
theorem C10_constructor_error :
    ∀ (e : String) (opts : List IdxOption),
      NewIndexFromReader (.error e) opts =
        ({ cfg := applyOptions opts, docs := [] }, some e) ∧
      NewIndexFromMarkdown (.error e) opts =
        ({ cfg := defaultConfig, docs := [] }, some e) ∧
      (∀ q k, TopK (NewIndexFromReader (.error e) opts).1 q k = []) ∧
      (∀ q k, TopK (NewIndexFromMarkdown (.error e) opts).1 q k = []) := by
  intro e opts
  refine ⟨rfl, rfl, ?_, ?_⟩ <;> intro q k <;>
    simp [NewIndexFromReader, NewIndexFromMarkdown, TopK]

/-- C8: `TopK` returns nil on an empty index, a blank query, or a query
with no tokens, and a non-positive `k` behaves exactly like `k = 3`, so at
most 3 results come back. -/
theorem C8_topk_nil_and_default_k :
    ∀ (i : Idx) (q : String) (k : Int),
      ((i.docs = [] ∨ trimSpace q = "" ∨ tokenize q i.cfg.stopwords = []) → TopK i q k = []) ∧
      (k ≤ 0 → TopK i q k = TopK i q 3 ∧ (TopK i q k).length ≤ 3) := by
  intro i q k
  have hdef : k ≤ 0 → TopK i q k = TopK i q 3 := by
    intro hk
    unfold TopK
    have h1 : (if k ≤ 0 then (3 : Int) else k) = 3 := if_pos hk
    have h2 : (if (3 : Int) ≤ 0 then (3 : Int) else 3) = 3 := by norm_num
    rw [h1, h2]
  constructor
  · intro h
    unfold TopK
    rcases h with h | h | h
    · simp [h]
    · simp [h]
    · simp [h]
  · intro hk
    refine ⟨hdef hk, ?_⟩
    rw [hdef hk]
    unfold TopK
    have h2 : (if (3 : Int) ≤ 0 then (3 : Int) else 3) = 3 := by norm_num
    rw [h2]
    split_ifs with h1 h2 h3
    · simp
    · simp
    · simp
    · by_cases hb : topkBuf i q = []
      · simp [hb]
      · simp only [List.length_eq_zero, hb, if_false, List.map_take, List.length_take,
          List.length_map]
        refine le_trans (min_le_left _ _) ?_
        split_ifs with h <;> omega

/-! ## Structural lemmas about `TopK` -/

theorem tokenize_nodup (s : String) (stop : List String) : (tokenize s stop).Nodup :=
  List.nodup_dedup _

theorem scoreDoc_some (qT : List String) (d : Doc) (x : Scored)
    (h : scoreDoc qT d = some x) :
    x.snippet = d.text ∧ x.lenRunes = d.text.length ∧
    overlapCount qT d.tokens ≠ 0 ∧
    ¬ ((qT.length : ℚ) + (d.tLen : ℚ) - (overlapCount qT d.tokens : ℚ) ≤ 0) ∧
    x.score = (overlapCount qT d.tokens : ℚ) /
      ((qT.length : ℚ) + (d.tLen : ℚ) - (overlapCount qT d.tokens : ℚ)) ∧
    0 < x.score := by
  unfold scoreDoc at h
  dsimp only at h
  split_ifs at h with h1 h2 h3
  have hx := Option.some.inj h
  subst hx
  refine ⟨rfl, rfl, h1, h2, rfl, ?_⟩
  simpa using lt_of_not_le h3

theorem topkBuf_mem (i : Idx) (q : String) (x : Scored) (hx : x ∈ topkBuf i q) :
    ∃ d ∈ i.docs, scoreDoc (tokenize q i.cfg.stopwords) d = some x :=
  List.mem_filterMap.mp hx

theorem topkBuf_lenRunes (i : Idx) (q : String) :
    ∀ x ∈ topkBuf i q, x.lenRunes = x.snippet.length := by
  intro x hx
  obtain ⟨d, _, hd⟩ := topkBuf_mem i q x hx
  obtain ⟨hsnip, hlen, _⟩ := scoreDoc_some _ _ _ hd
  rw [hlen, hsnip]

/-- Every element of `TopK` comes from the scored buffer. -/
theorem topk_mem (i : Idx) (q : String) (k : Int) (r : Result) (hr : r ∈ TopK i q k) :
    ∃ x ∈ topkBuf i q, r = { snippet := x.snippet, score := x.score } := by
  unfold TopK at hr
  by_cases h1 : i.docs.length = 0
  · rw [if_pos h1] at hr
    simp at hr
  rw [if_neg h1] at hr
  by_cases h2 : trimSpace q = ""
  · rw [if_pos h2] at hr
    simp at hr
  rw [if_neg h2] at hr
  by_cases h3 : (tokenize q i.cfg.stopwords).length = 0
  · rw [if_pos h3] at hr
    simp at hr
  rw [if_neg h3] at hr
  by_cases hb : (topkBuf i q).length = 0
  · rw [if_pos hb] at hr
    simp at hr
  rw [if_neg hb] at hr
  obtain ⟨x, hx, hfx⟩ := List.mem_map.mp hr
  have hx2 : x ∈ List.insertionSort scoredLe (topkBuf i q) :=
    (List.take_sublist _ _).subset hx
  exact ⟨x, (List.perm_insertionSort scoredLe (topkBuf i q)).subset hx2, hfx.symm⟩

/-- The relation in which `TopK`'s output is sorted: score descending,
then snippet rune length ascending, then snippet text ascending. -/
def resultLE (x y : Result) : Prop :=
  y.score < x.score ∨
    (x.score = y.score ∧
      (x.snippet.length < y.snippet.length ∨
        (x.snippet.length = y.snippet.length ∧ x.snippet ≤ y.snippet)))

theorem sorted_take_map (buf : List Scored)
    (hlen : ∀ x ∈ buf, x.lenRunes = x.snippet.length) (n : Nat) :
    List.Sorted resultLE (((List.insertionSort scoredLe buf).take n).map
      (fun x => ({ snippet := x.snippet, score := x.score } : Result))) := by
  have hs : List.Sorted scoredLe (List.insertionSort scoredLe buf) :=
    List.sorted_insertionSort scoredLe buf
  have hst : List.Sorted scoredLe ((List.insertionSort scoredLe buf).take n) :=
    List.Pairwise.sublist (List.take_sublist _ _) hs
  have hmem : ∀ x ∈ (List.insertionSort scoredLe buf).take n, x ∈ buf := by
    intro x hx
    exact (List.perm_insertionSort scoredLe buf).subset ((List.take_sublist _ _).subset hx)
  refine List.pairwise_map.mpr (List.Pairwise.imp_of_mem ?_ hst)
  intro a b ha hb hab
  have hla := hlen a (hmem a ha)
  have hlb := hlen b (hmem b hb)
  rcases hab with h | ⟨h, h2⟩
  · exact Or.inl h
  · refine Or.inr ⟨h, ?_⟩
    rcases h2 with h2 | ⟨h2, h3⟩
    · exact Or.inl (by rw [← hla, ← hlb]; exact h2)
    · exact Or.inr ⟨by rw [← hla, ← hlb]; exact h2, h3⟩

/-- C5: `TopK` output is sorted by the total order score-descending, then
snippet rune-length ascending, then snippet lexicographically ascending;
in particular two documents with identical token sets and snippet rune
lengths 10 and 14, queried with all shared tokens, rank the shorter
snippet first. -/
theorem C5_topk_order :
    (∀ (i : Idx) (q : String) (k : Int), List.Sorted resultLE (TopK i q k)) ∧
    TopK (NewIndexFromStrings ["abc defghi", "abc defghi abc"]
        [.withMinParagraphRunes 0]) "abc defghi" 5 =
      [{ snippet := "abc defghi", score := 1 }, { snippet := "abc defghi abc", score := 1 }] := by
  constructor
  · intro i q k
    unfold TopK
    by_cases h1 : i.docs.length = 0
    · rw [if_pos h1]
      simp
    rw [if_neg h1]
    by_cases h2 : trimSpace q = ""
    · rw [if_pos h2]
      simp
    rw [if_neg h2]
    by_cases h3 : (tokenize q i.cfg.stopwords).length = 0
    · rw [if_pos h3]
      simp
    rw [if_neg h3]
    by_cases hb : (topkBuf i q).length = 0
    · rw [if_pos hb]
      simp
    rw [if_neg hb]
    exact sorted_take_map _ (topkBuf_lenRunes i q) _
  · decide

/-- C6: every result of `TopK` on a built index carries the exact Jaccard
score of its document against the query token set, that score lies in
(0, 1], and a document with zero token overlap never appears. -/
theorem C6_jaccard_bounds (ps : List String) (cfg : Config) (q : String) (k : Int) :
    (∀ r ∈ TopK (buildIndex ps cfg) q k,
      ∃ d ∈ (buildIndex ps cfg).docs,
        r.snippet = d.text ∧
        overlapCount (tokenize q cfg.stopwords) d.tokens ≠ 0 ∧
        r.score = (overlapCount (tokenize q cfg.stopwords) d.tokens : ℚ) /
          (((tokenize q cfg.stopwords).length : ℚ) + (d.tLen : ℚ) -
            (overlapCount (tokenize q cfg.stopwords) d.tokens : ℚ)) ∧
        0 < r.score ∧ r.score ≤ 1) ∧
    (∀ d ∈ (buildIndex ps cfg).docs,
      overlapCount (tokenize q cfg.stopwords) d.tokens = 0 →
      ∀ r ∈ TopK (buildIndex ps cfg) q k, r.snippet ≠ d.text) := by
  have hmain : ∀ r ∈ TopK (buildIndex ps cfg) q k,
      ∃ d ∈ (buildIndex ps cfg).docs,
        r.snippet = d.text ∧
        overlapCount (tokenize q cfg.stopwords) d.tokens ≠ 0 ∧
        r.score = (overlapCount (tokenize q cfg.stopwords) d.tokens : ℚ) /
          (((tokenize q cfg.stopwords).length : ℚ) + (d.tLen : ℚ) -
            (overlapCount (tokenize q cfg.stopwords) d.tokens : ℚ)) ∧
        0 < r.score ∧ r.score ≤ 1 := by
    intro r hr
    obtain ⟨x, hx, hrx⟩ := topk_mem _ _ _ _ hr
    obtain ⟨d, hd, hsd⟩ := topkBuf_mem _ _ _ hx
    obtain ⟨hsnip, _, hover, hunion, hscore, hpos⟩ := scoreDoc_some _ _ _ hsd
    simp only [show (buildIndex ps cfg).cfg.stopwords = cfg.stopwords from rfl]
      at hover hunion hscore
    refine ⟨d, hd, by rw [hrx, hsnip], hover, by rw [hrx]; exact hscore, by rw [hrx]; exact hpos, ?_⟩
    -- score ≤ 1 : the overlap is at most each of the two set sizes
    obtain ⟨_, htok, _, _, htLen, _⟩ := buildIndexAux_mem cfg ps 0 d hd
    have hq1 : overlapCount (tokenize q cfg.stopwords) d.tokens ≤
        (tokenize q cfg.stopwords).length := List.length_filter_le _ _
    have hq2 : overlapCount (tokenize q cfg.stopwords) d.tokens ≤ d.tLen := by
      rw [htLen]
      refine List.Subperm.length_le (List.subperm_of_subset ?_ ?_)
      · exact List.Nodup.filter _ (tokenize_nodup q cfg.stopwords)
      · intro t ht
        have := List.mem_filter.mp ht
        exact List.elem_iff.mp this.2
    have hu : (0 : ℚ) < ((tokenize q cfg.stopwords).length : ℚ) + (d.tLen : ℚ) -
        (overlapCount (tokenize q cfg.stopwords) d.tokens : ℚ) := lt_of_not_le hunion
    rw [hrx]
    simp only
    rw [hscore, div_le_one hu]
    have hcast1 : ((overlapCount (tokenize q cfg.stopwords) d.tokens : Nat) : ℚ) ≤
        ((tokenize q cfg.stopwords).length : ℚ) := by exact_mod_cast hq1
    have hcast2 : ((overlapCount (tokenize q cfg.stopwords) d.tokens : Nat) : ℚ) ≤
        ((d.tLen : Nat) : ℚ) := by exact_mod_cast hq2
    linarith
  refine ⟨hmain, ?_⟩
  intro d hd hzero r hr hsnip
  obtain ⟨d2, hd2, hsnip2, hover2, _⟩ := hmain r hr
  obtain ⟨_, htok, _, _, _, _⟩ := buildIndexAux_mem cfg ps 0 d hd
  obtain ⟨_, htok2, _, _, _, _⟩ := buildIndexAux_mem cfg ps 0 d2 hd2
  have htext : d2.text = d.text := by rw [← hsnip, ← hsnip2]
  have : d2.tokens = d.tokens := by rw [htok, htok2, htext]
  rw [this] at hover2
  exact hover2 hzero

/-- Witness for C6 at a concrete index and query. -/
theorem C6_jaccard_bounds_witness :
    ∃ d ∈ (buildIndex ["abc defghi xy"] { minParagraphRunes := 0, stopwords := [], maxDocs := 0 }).docs,
      ({ snippet := "abc defghi xy", score := 2/3 } : Result).snippet = d.text ∧
      overlapCount (tokenize "abc defghi" []) d.tokens ≠ 0 ∧
      ({ snippet := "abc defghi xy", score := 2/3 } : Result).score =
        (overlapCount (tokenize "abc defghi" []) d.tokens : ℚ) /
          (((tokenize "abc defghi" []).length : ℚ) + (d.tLen : ℚ) -
            (overlapCount (tokenize "abc defghi" []) d.tokens : ℚ)) ∧
      0 < ({ snippet := "abc defghi xy", score := 2/3 } : Result).score ∧
      ({ snippet := "abc defghi xy", score := 2/3 } : Result).score ≤ 1 :=
  (C6_jaccard_bounds ["abc defghi xy"] { minParagraphRunes := 0, stopwords := [], maxDocs := 0 }
    "abc defghi" 5).1 _ (by decide)

/-- Witness for C8 at a concrete index: blank query gives nil, `k = 0`
behaves like `k = 3`. -/
theorem C8_topk_nil_and_default_k_witness :
    TopK (NewIndexFromStrings ["abc defghi"] [.withMinParagraphRunes 0]) "" 5 = [] ∧
    TopK (NewIndexFromStrings ["abc defghi"] [.withMinParagraphRunes 0]) "abc" 0 =
      TopK (NewIndexFromStrings ["abc defghi"] [.withMinParagraphRunes 0]) "abc" 3 :=
  ⟨(C8_topk_nil_and_default_k _ "" 5).1 (Or.inr (Or.inl (by decide))),
   ((C8_topk_nil_and_default_k _ "abc" 0).2 (by decide)).1⟩

/-! ## Structural lemmas about `retrieve` -/

theorem sortCands_eq_nil_iff (l : List Cand) : sortCands l = [] ↔ l = [] := by
  constructor
  · intro h
    have hp := List.perm_insertionSort candGE l
    rw [show List.insertionSort candGE l = sortCands l from rfl, h] at hp
    exact hp.symm.eq_nil
  · intro h
    rw [h]
    rfl

/-- C1: `retrieve` returns a nil score exactly when the index is absent,
`TopK` (with the one simplification retry) yields nothing, every candidate
is filtered out by the gates, or the top survivor's raw index score is
below the effective threshold (0.20 when the configured one is not
positive); and every nil-score return carries the decline message. -/
theorem C1_retrieve_decline_iff (s : MessageService) (prompt : String) :
    ((retrieve s prompt).2 = none ↔
      s.index = none ∨ ∃ topk, s.index = some topk ∧
        (retrieveResults topk prompt = [] ∨ retrievePipeline topk prompt = [] ∨
          ∃ top rest, sortCands (retrievePipeline topk prompt) = top :: rest ∧
            top.indexScore < effThreshold s)) ∧
    ((retrieve s prompt).2 = none → (retrieve s prompt).1 = declineMsg) := by
  cases hidx : s.index with
  | none =>
    have h2 : retrieve s prompt = (declineMsg, none) := by simp [retrieve, hidx]
    rw [h2]
    exact ⟨⟨fun _ => Or.inl rfl, fun _ => rfl⟩, fun _ => rfl⟩
  | some topk =>
    by_cases hres : retrieveResults topk prompt = []
    · have h2 : retrieve s prompt = (declineMsg, none) := by
        simp [retrieve, hidx, hres]
      rw [h2]
      exact ⟨⟨fun _ => Or.inr ⟨topk, rfl, Or.inl hres⟩, fun _ => rfl⟩, fun _ => rfl⟩
    · cases hsort : sortCands (retrievePipeline topk prompt) with
      | nil =>
        have hpipe : retrievePipeline topk prompt = [] := (sortCands_eq_nil_iff _).mp hsort
        have h2 : retrieve s prompt = (declineMsg, none) := by
          simp [retrieve, hidx, hres, hsort]
        rw [h2]
        exact ⟨⟨fun _ => Or.inr ⟨topk, rfl, Or.inr (Or.inl hpipe)⟩, fun _ => rfl⟩, fun _ => rfl⟩
      | cons top rest =>
        by_cases hthr : top.indexScore < effThreshold s
        · have h2 : retrieve s prompt = (declineMsg, none) := by
            simp [retrieve, hidx, hres, hsort, hthr]
          rw [h2]
          exact ⟨⟨fun _ => Or.inr ⟨topk, rfl, Or.inr (Or.inr ⟨top, rest, hsort, hthr⟩)⟩,
            fun _ => rfl⟩, fun _ => rfl⟩
        · have h2 : retrieve s prompt =
              (collapseWhitespaceLines (mergeOut top rest), some top.indexScore) := by
            simp [retrieve, hidx, hres, hsort, hthr]
          rw [h2]
          constructor
          · constructor
            · intro hnone
              simp at hnone
            · intro hrhs
              exfalso
              rcases hrhs with h | ⟨topk2, htopk2, h⟩
              · simp at h
              · have heq : topk2 = topk := (Option.some.inj htopk2).symm
                subst heq
                rcases h with h | h | ⟨top2, rest2, hsort2, hthr2⟩
                · exact hres h
                · rw [(sortCands_eq_nil_iff _).mpr h] at hsort
                  simp at hsort
                · rw [hsort] at hsort2
                  have h1 : top = top2 := (List.cons.inj hsort2).1
                  rw [← h1] at hthr2
                  exact hthr hthr2
          · intro hnone
            simp at hnone

/-- A one-result index function used by concrete witnesses: the single
candidate snippet lacks the strong entity but overlaps on `apps`. -/
def topkNA1 : String → Int → List Result :=
  fun q _ => if q = "Nashville apps" then [{ snippet := "popular apps trend", score := 3/10 }] else []

/-- A two-result index function used by concrete witnesses: the runner-up
covers strictly more strong entities than the top candidate. -/
def topkNA2 : String → Int → List Result :=
  fun q _ =>
    if q = "Nashville apps" then
      [{ snippet := "popular apps trend", score := 3/10 },
       { snippet := "nashville apps data here", score := 1/5 }]
    else []

/-- C2: the accept/decline comparison of `retrieve` is made against the
raw index score of the survivor ranked first by combined score, and on
acceptance the returned score is exactly that raw score. -/
theorem C2_threshold_on_raw_score (s : MessageService) (topk : String → Int → List Result)
    (prompt : String) (top : Cand) (rest : List Cand)
    (hidx : s.index = some topk)
    (hres : retrieveResults topk prompt ≠ [])
    (hsort : sortCands (retrievePipeline topk prompt) = top :: rest) :
    (∀ c ∈ retrievePipeline topk prompt, c.combined ≤ top.combined) ∧
    (effThreshold s ≤ top.indexScore → (retrieve s prompt).2 = some top.indexScore) ∧
    (top.indexScore < effThreshold s → (retrieve s prompt).2 = none) := by
  refine ⟨?_, ?_, ?_⟩
  · intro c hc
    have hsorted : List.Sorted candGE (sortCands (retrievePipeline topk prompt)) :=
      List.sorted_insertionSort candGE _
    rw [hsort] at hsorted
    have hmem : c ∈ top :: rest := by
      rw [← hsort]
      exact (List.perm_insertionSort candGE _).symm.subset hc
    rcases List.mem_cons.mp hmem with h | h
    · rw [h]
    · exact (List.sorted_cons.mp hsorted).1 c h
  · intro hthr
    simp [retrieve, hidx, hres, hsort, not_lt.mpr hthr]
  · intro hthr
    simp [retrieve, hidx, hres, hsort, hthr]

/-- Witness for C2 at a concrete service: the returned score is the raw
index score 3/10 of the only survivor. -/
theorem C2_threshold_on_raw_score_witness :
    (retrieve { index := some topkNA1, threshold := 0 } "Nashville apps").2 = some ((3 : ℚ)/10) := by
  have h := C2_threshold_on_raw_score { index := some topkNA1, threshold := 0 } topkNA1
    "Nashville apps"
    { text := "popular apps trend", indexScore := 3/10, overlapRel := 1/4,
      combined := 5/8, strongEntHit := [] } []
    rfl (by decide) (by decide)
  exact h.2.1 (by decide)

/-- C3: under acceptance, `retrieve` appends the runner-up's snippet as a
second line exactly when the runner-up's combined score is at least 90% of
the top's and its strong-entity hits cover every strong entity the top
matched (a proper superset of hits also merges). -/
theorem C3_second_candidate_merge (s : MessageService) (topk : String → Int → List Result)
    (prompt : String) (top : Cand) (rest : List Cand)
    (hidx : s.index = some topk)
    (hres : retrieveResults topk prompt ≠ [])
    (hsort : sortCands (retrievePipeline topk prompt) = top :: rest)
    (hacc : effThreshold s ≤ top.indexScore) :
    (retrieve s prompt).1 =
      (match rest with
       | [] => collapseWhitespaceLines top.text
       | c1 :: _ =>
         if top.combined * (9 / 10) ≤ c1.combined ∧
             (∀ e ∈ top.strongEntHit, e ∈ c1.strongEntHit) then
           collapseWhitespaceLines (top.text ++ "\n" ++ c1.text)
         else collapseWhitespaceLines top.text) := by
  have h2 : retrieve s prompt =
      (collapseWhitespaceLines (mergeOut top rest), some top.indexScore) := by
    simp [retrieve, hidx, hres, hsort, not_lt.mpr hacc]
  rw [h2]
  cases rest with
  | nil => rfl
  | cons c1 r2 =>
    by_cases hcond : top.combined * (9 / 10) ≤ c1.combined ∧
        (∀ e ∈ top.strongEntHit, e ∈ c1.strongEntHit)
    · simp only [mergeOut, if_pos hcond]
    · simp only [mergeOut, if_neg hcond]

/-- Witness for C3 at a concrete service: the runner-up matches strictly
more strong entities than the top (`["nashville"]` versus `[]`) and is
still merged as a second line. -/
theorem C3_second_candidate_merge_witness :
    (retrieve { index := some topkNA2, threshold := 0 } "Nashville apps").1 =
      "popular apps trend\nnashville apps data here" := by
  have h := C3_second_candidate_merge { index := some topkNA2, threshold := 0 } topkNA2
    "Nashville apps"
    { text := "popular apps trend", indexScore := 3/10, overlapRel := 1/4,
      combined := 5/8, strongEntHit := [] }
    [{ text := "nashville apps data here", indexScore := 1/5, overlapRel := 14/25,
       combined := 46/75, strongEntHit := ["nashville"] }]
    rfl (by decide) (by decide) (by decide)
  rw [h]
  decide

/-- Every surviving candidate records exactly the strong-entity hits of
its cleaned snippet, and passes the two-hit gate when two hits are
required. -/
theorem mkCand_some_spec (q : queryTerms) (ct strong : List String) (n : Nat)
    (maxScore : ℚ) (r : Result) (c : Cand)
    (h : mkCand q ct strong n maxScore r = some c) :
    c.strongEntHit = strongHits strong (stripMarkdownTablesToLines (trimSpace r.snippet)) ∧
    c.indexScore = r.score ∧
    c.text = stripMarkdownTablesToLines (trimSpace r.snippet) ∧
    (2 ≤ n → 2 ≤ c.strongEntHit.length) := by
  unfold mkCand at h
  dsimp only at h
  split_ifs at h
  all_goals first
    | exact Option.noConfusion h
    | (have hc := Option.some.inj h
       subst hc
       refine ⟨rfl, rfl, rfl, ?_⟩
       intro hn
       dsimp only
       first
         | exact of_decide_eq_true (by assumption)
         | exact absurd hn (by assumption))

/-- A candidate whose cleaned snippet matches fewer than two strong
entities is discarded whenever two hits are required. -/
theorem mkCand_none_of_few_hits (q : queryTerms) (ct strong : List String) (n : Nat)
    (maxScore : ℚ) (r : Result)
    (hn : 2 ≤ n)
    (hfew : (strongHits strong (stripMarkdownTablesToLines (trimSpace r.snippet))).length < 2) :
    mkCand q ct strong n maxScore r = none := by
  unfold mkCand
  dsimp only
  split_ifs
  all_goals first
    | rfl
    | exact absurd (of_decide_eq_true (by assumption)) (not_le.mpr hfew)
    | exact absurd hn (by assumption)

/-- C7: when the query has at least two strong entities (so two hits are
required), every surviving candidate matches at least two of them — there
is no escape via overlap — and when the only candidate matches fewer than
two, `retrieve` declines with a nil score regardless of its raw index
score. -/
theorem C7_strict_two_entity_gate (s : MessageService) (topk : String → Int → List Result)
    (prompt : String)
    (hidx : s.index = some topk)
    (h2 : 2 ≤ (strongEntitiesOf prompt (extractQueryTerms prompt)).length) :
    (∀ c ∈ retrievePipeline topk prompt, 2 ≤ c.strongEntHit.length) ∧
    (∀ r : Result, retrieveResults topk prompt = [r] →
      (strongHits (strongEntitiesOf prompt (extractQueryTerms prompt))
        (stripMarkdownTablesToLines (trimSpace r.snippet))).length < 2 →
      (retrieve s prompt).2 = none) := by
  have hreq : requiredHitsOf (strongEntitiesOf prompt (extractQueryTerms prompt)) = 2 := by
    unfold requiredHitsOf
    rw [if_pos h2]
  constructor
  · intro c hc
    unfold retrievePipeline at hc
    dsimp only at hc
    obtain ⟨r, _, hr⟩ := List.mem_filterMap.mp hc
    rw [hreq] at hr
    exact (mkCand_some_spec _ _ _ _ _ _ _ hr).2.2.2 le_rfl
  · intro r hr hfew
    have hpipe : retrievePipeline topk prompt = [] := by
      unfold retrievePipeline
      dsimp only
      rw [hr, hreq]
      simp only [List.filterMap]
      rw [mkCand_none_of_few_hits _ _ _ _ _ _ le_rfl hfew]
    have hres : retrieveResults topk prompt ≠ [] := by
      rw [hr]
      exact List.cons_ne_nil r []
    simp [retrieve, hidx, hres, (sortCands_eq_nil_iff _).mpr hpipe]

/-- Witness for C7: a query with two strong entities whose only candidate
matches just one of them is declined despite a raw score of 9/10. -/
theorem C7_strict_two_entity_gate_witness :
    (retrieve { index := some (fun q _ =>
      if q = "Gen Z Nashville" then
        [{ snippet := "Gen Z trends continue nationwide.", score := 9/10 }]
      else []), threshold := 0 } "Gen Z Nashville").2 = none := by
  exact (C7_strict_two_entity_gate _ _ "Gen Z Nashville" rfl (by decide)).2
    { snippet := "Gen Z trends continue nationwide.", score := 9/10 } (by decide) (by decide)

/-- Witness for C1 at a concrete service with no index: nil score and the
decline message. -/
theorem C1_retrieve_decline_iff_witness :
    (retrieve { index := none, threshold := 0 } "anything").2 = none ∧
    (retrieve { index := none, threshold := 0 } "anything").1 = declineMsg := by
  have h := C1_retrieve_decline_iff { index := none, threshold := 0 } "anything"
  have h1 : (retrieve { index := none, threshold := 0 } "anything").2 = none :=
    h.1.mpr (Or.inl rfl)
  exact ⟨h1, h.2 h1⟩

/-! ## Tokens are substrings of the lowered source text -/

theorem inf_append_left {α : Type} {u t : List α} (s : List α) (h : u <:+: t) :
    u <:+: s ++ t :=
  h.trans ( List.IsSuffix.isInfix (List.suffix_append s t))

theorem listContainsSub_iff (needle : List Char) :
    ∀ hay, listContainsSub hay needle = true ↔ needle <:+: hay := by
  intro hay
  induction hay with
  | nil =>
    simp only [listContainsSub, List.isEmpty_iff, List.infix_nil]
  | cons c rest ih =>
    simp only [listContainsSub, Bool.or_eq_true]
    rw [List.infix_cons_iff]
    constructor
    · rintro (h | h)
      · exact Or.inl ( List.isPrefixOf_iff_prefix.mp h)
      · exact Or.inr (ih.mp h)
    · rintro (h | h)
      · exact Or.inl ( List.isPrefixOf_iff_prefix.mpr h)
      · exact Or.inr (ih.mpr h)

theorem wordTokensAux_inf :
    ∀ (l : List Char) (b : Bool) (acc : List Char) (cs : List Char),
      cs ∈ wordTokensAux l b acc → cs <:+: (acc.reverse ++ l) := by
  intro l
  induction l with
  | nil =>
    intro b acc cs h
    by_cases ha : acc.isEmpty
    · simp [wordTokensAux, ha] at h
    · simp only [wordTokensAux, ha, if_false, Bool.false_eq_true, List.mem_singleton] at h
      subst h
      simpa using List.infix_refl acc.reverse
  | cons c rest ih =>
    intro b acc cs h
    have hext : ∀ u : List Char, u <:+: c :: rest → u <:+: acc.reverse ++ c :: rest :=
      fun u hu => inf_append_left _ hu
    have hrest : ∀ u : List Char, u <:+: rest → u <:+: acc.reverse ++ c :: rest :=
      fun u hu => hext u (List.infix_cons_iff.mpr (Or.inr hu))
    have hcont : ∀ u : List Char,
        u <:+: ((c :: acc).reverse ++ rest) → u <:+: acc.reverse ++ c :: rest := by
      intro u hu
      rw [List.reverse_cons, List.append_assoc] at hu
      simpa using hu
    simp only [wordTokensAux] at h
    split_ifs at h with h1 h2 h3 h4 h5 h6 h7
    · -- fresh token started at a letter
      have ha : acc = [] := List.isEmpty_iff.mp h1
      subst ha
      have := ih false [c] cs h
      simpa using this
    · -- skipped character with empty accumulator
      have ha : acc = [] := List.isEmpty_iff.mp h1
      subst ha
      simpa using hrest cs (ih false [] cs h)
    · -- digit continues the digit phase
      exact hcont cs (ih true (c :: acc) cs h)
    · -- letter after digits: emit and start a new token
      rcases List.mem_cons.mp h with h | h
      · rw [h]
        exact List.IsPrefix.isInfix (List.prefix_append _ _)
      · exact hext cs (by simpa using ih false [c] cs h)
    · -- other character: emit
      rcases List.mem_cons.mp h with h | h
      · rw [h]
        exact List.IsPrefix.isInfix (List.prefix_append _ _)
      · exact hrest cs (by simpa using ih false [] cs h)
    · -- letter continues the letter phase
      exact hcont cs (ih false (c :: acc) cs h)
    · -- digit enters the digit phase
      exact hcont cs (ih true (c :: acc) cs h)
    · -- other character: emit
      rcases List.mem_cons.mp h with h | h
      · rw [h]
        exact List.IsPrefix.isInfix (List.prefix_append _ _)
      · exact hrest cs (by simpa using ih false [] cs h)

theorem wordTokensAux_alnum :
    ∀ (l : List Char) (b : Bool) (acc : List Char),
      (∀ c ∈ acc, isAlnumCh c = true) →
      ∀ cs ∈ wordTokensAux l b acc, ∀ c ∈ cs, isAlnumCh c = true := by
  intro l
  induction l with
  | nil =>
    intro b acc hacc cs h
    by_cases ha : acc.isEmpty
    · simp [wordTokensAux, ha] at h
    · simp only [wordTokensAux, ha, if_false, Bool.false_eq_true, List.mem_singleton] at h
      subst h
      intro c hc
      exact hacc c (List.mem_reverse.mp hc)
  | cons c rest ih =>
    intro b acc hacc cs h
    have hc1 : isLetterCh c = true → ∀ d ∈ [c], isAlnumCh d = true := by
      intro hl d hd
      rw [List.mem_singleton.mp hd]
      simp [isAlnumCh, hl]
    have hcons : isAlnumCh c = true → ∀ d ∈ c :: acc, isAlnumCh d = true := by
      intro hl d hd
      rcases List.mem_cons.mp hd with hd | hd
      · rw [hd]; exact hl
      · exact hacc d hd
    have hemit : ∀ d ∈ acc.reverse, isAlnumCh d = true :=
      fun d hd => hacc d (List.mem_reverse.mp hd)
    simp only [wordTokensAux] at h
    split_ifs at h with h1 h2 h3 h4 h5 h6 h7
    · exact ih false [c] (hc1 h2) cs h
    · exact ih false [] (by simp) cs h
    · exact ih true (c :: acc) (hcons (by simp [isAlnumCh, isDigitCh] at h4 ⊢; simp [h4])) cs h
    · rcases List.mem_cons.mp h with h | h
      · intro d hd; rw [h] at hd; exact hemit d hd
      · exact ih false [c] (hc1 h5) cs h
    · rcases List.mem_cons.mp h with h | h
      · intro d hd; rw [h] at hd; exact hemit d hd
      · exact ih false [] (by simp) cs h
    · exact ih false (c :: acc) (hcons (by simp [isAlnumCh, h6])) cs h
    · exact ih true (c :: acc) (hcons (by simp [isAlnumCh, h7])) cs h
    · rcases List.mem_cons.mp h with h | h
      · intro d hd; rw [h] at hd; exact hemit d hd
      · exact ih false [] (by simp) cs h

theorem lowerCh_isNWS (c : Char) : isNWS (lowerCh c) = isNWS c := by
  by_cases h1 : c = 'A'
  · subst h1; rfl
  by_cases h2 : c = 'B'
  · subst h2; rfl
  by_cases h3 : c = 'C'
  · subst h3; rfl
  by_cases h4 : c = 'D'
  · subst h4; rfl
  by_cases h5 : c = 'E'
  · subst h5; rfl
  by_cases h6 : c = 'F'
  · subst h6; rfl
  by_cases h7 : c = 'G'
  · subst h7; rfl
  by_cases h8 : c = 'H'
  · subst h8; rfl
  by_cases h9 : c = 'I'
  · subst h9; rfl
  by_cases h10 : c = 'J'
  · subst h10; rfl
  by_cases h11 : c = 'K'
  · subst h11; rfl
  by_cases h12 : c = 'L'
  · subst h12; rfl
  by_cases h13 : c = 'M'
  · subst h13; rfl
  by_cases h14 : c = 'N'
  · subst h14; rfl
  by_cases h15 : c = 'O'
  · subst h15; rfl
  by_cases h16 : c = 'P'
  · subst h16; rfl
  by_cases h17 : c = 'Q'
  · subst h17; rfl
  by_cases h18 : c = 'R'
  · subst h18; rfl
  by_cases h19 : c = 'S'
  · subst h19; rfl
  by_cases h20 : c = 'T'
  · subst h20; rfl
  by_cases h21 : c = 'U'
  · subst h21; rfl
  by_cases h22 : c = 'V'
  · subst h22; rfl
  by_cases h23 : c = 'W'
  · subst h23; rfl
  by_cases h24 : c = 'X'
  · subst h24; rfl
  by_cases h25 : c = 'Y'
  · subst h25; rfl
  by_cases h26 : c = 'Z'
  · subst h26; rfl
  have hc : lowerCh c = c := by
    unfold lowerCh
    rw [if_neg h1, if_neg h2, if_neg h3, if_neg h4, if_neg h5, if_neg h6, if_neg h7, if_neg h8, if_neg h9, if_neg h10, if_neg h11, if_neg h12, if_neg h13, if_neg h14, if_neg h15, if_neg h16, if_neg h17, if_neg h18, if_neg h19, if_neg h20, if_neg h21, if_neg h22, if_neg h23, if_neg h24, if_neg h25, if_neg h26]
  rw [hc]

theorem lowerCh_isGoSpace (c : Char) : isGoSpace (lowerCh c) = isGoSpace c := by
  by_cases h1 : c = 'A'
  · subst h1; rfl
  by_cases h2 : c = 'B'
  · subst h2; rfl
  by_cases h3 : c = 'C'
  · subst h3; rfl
  by_cases h4 : c = 'D'
  · subst h4; rfl
  by_cases h5 : c = 'E'
  · subst h5; rfl
  by_cases h6 : c = 'F'
  · subst h6; rfl
  by_cases h7 : c = 'G'
  · subst h7; rfl
  by_cases h8 : c = 'H'
  · subst h8; rfl
  by_cases h9 : c = 'I'
  · subst h9; rfl
  by_cases h10 : c = 'J'
  · subst h10; rfl
  by_cases h11 : c = 'K'
  · subst h11; rfl
  by_cases h12 : c = 'L'
  · subst h12; rfl
  by_cases h13 : c = 'M'
  · subst h13; rfl
  by_cases h14 : c = 'N'
  · subst h14; rfl
  by_cases h15 : c = 'O'
  · subst h15; rfl
  by_cases h16 : c = 'P'
  · subst h16; rfl
  by_cases h17 : c = 'Q'
  · subst h17; rfl
  by_cases h18 : c = 'R'
  · subst h18; rfl
  by_cases h19 : c = 'S'
  · subst h19; rfl
  by_cases h20 : c = 'T'
  · subst h20; rfl
  by_cases h21 : c = 'U'
  · subst h21; rfl
  by_cases h22 : c = 'V'
  · subst h22; rfl
  by_cases h23 : c = 'W'
  · subst h23; rfl
  by_cases h24 : c = 'X'
  · subst h24; rfl
  by_cases h25 : c = 'Y'
  · subst h25; rfl
  by_cases h26 : c = 'Z'
  · subst h26; rfl
  have hc : lowerCh c = c := by
    unfold lowerCh
    rw [if_neg h1, if_neg h2, if_neg h3, if_neg h4, if_neg h5, if_neg h6, if_neg h7, if_neg h8, if_neg h9, if_neg h10, if_neg h11, if_neg h12, if_neg h13, if_neg h14, if_neg h15, if_neg h16, if_neg h17, if_neg h18, if_neg h19, if_neg h20, if_neg h21, if_neg h22, if_neg h23, if_neg h24, if_neg h25, if_neg h26]
  rw [hc]

theorem map_lowerCh_normalize :
    ∀ (l : List Char) (b : Bool),
      (normalizeWhitespaceAux l b).map lowerCh = normalizeWhitespaceAux (l.map lowerCh) b := by
  intro l
  induction l with
  | nil => intro b; rfl
  | cons c rest ih =>
    intro b
    simp only [normalizeWhitespaceAux, List.map_cons, lowerCh_isNWS]
    by_cases h : isNWS c = true
    · rw [if_pos h, if_pos h]
      by_cases hb : b = true
      · rw [if_pos hb, if_pos hb]
        exact ih true
      · rw [if_neg hb, if_neg hb]
        simp only [List.map_cons]
        rw [show lowerCh ' ' = ' ' from rfl, ih true]
    · rw [if_neg h, if_neg h]
      simp only [List.map_cons]
      rw [ih false]

theorem map_lowerCh_trimClass (l : List Char) :
    (trimClass isGoSpace l).map lowerCh = trimClass isGoSpace (l.map lowerCh) := by
  unfold trimClass
  have hfun : (isGoSpace ∘ lowerCh) = isGoSpace := funext lowerCh_isGoSpace
  rw [List.dropWhile_map, hfun, ← List.map_reverse, List.dropWhile_map, hfun, ← List.map_reverse]

theorem trimClass_inf (p : Char → Bool) (l : List Char) : trimClass p l <:+: l := by
  unfold trimClass
  have h1 : l.dropWhile p <:+ l := List.dropWhile_suffix p
  have h2 : ((l.dropWhile p).reverse.dropWhile p).reverse <+: l.dropWhile p := by
    rw [← List.reverse_suffix, List.reverse_reverse]
    exact List.dropWhile_suffix p
  exact ( List.IsPrefix.isInfix h2).trans ( List.IsSuffix.isInfix h1)

theorem alnum_pref_normalize :
    ∀ (l u : List Char), (∀ c ∈ u, isAlnumCh c = true) →
      u <+: normalizeWhitespaceAux l false → u <+: l := by
  intro l
  induction l with
  | nil =>
    intro u _ h
    simpa [normalizeWhitespaceAux] using h
  | cons c rest ih =>
    intro u halnum h
    simp only [normalizeWhitespaceAux, Bool.false_eq_true, if_false] at h
    by_cases hc : isNWS c = true
    · rw [if_pos hc] at h
      cases u with
      | nil => exact List.nil_prefix
      | cons x xs =>
        exfalso
        have hx := (List.cons_prefix_cons.mp h).1
        have := halnum x (List.mem_cons_self _ _)
        rw [hx] at this
        exact absurd this (by decide)
    · rw [if_neg hc] at h
      cases u with
      | nil => exact List.nil_prefix
      | cons x xs =>
        have hx := List.cons_prefix_cons.mp h
        have hxs := ih xs (fun d hd => halnum d (List.mem_cons_of_mem _ hd)) hx.2
        rw [hx.1]
        exact List.cons_prefix_cons.mpr ⟨rfl, hxs⟩

theorem alnum_inf_normalize :
    ∀ (l : List Char) (b : Bool) (u : List Char), (∀ c ∈ u, isAlnumCh c = true) →
      u <:+: normalizeWhitespaceAux l b → u <:+: l := by
  intro l
  induction l with
  | nil =>
    intro b u _ h
    simpa [normalizeWhitespaceAux] using h
  | cons c rest ih =>
    intro b u halnum h
    simp only [normalizeWhitespaceAux] at h
    by_cases hc : isNWS c = true
    · rw [if_pos hc] at h
      by_cases hb : b = true
      · rw [if_pos hb] at h
        exact List.infix_cons_iff.mpr (Or.inr (ih true u halnum h))
      · rw [if_neg hb] at h
        rcases List.infix_cons_iff.mp h with hp | hi
        · cases u with
          | nil => exact List.nil_infix
          | cons x xs =>
            exfalso
            have hx := (List.cons_prefix_cons.mp hp).1
            have := halnum x (List.mem_cons_self _ _)
            rw [hx] at this
            exact absurd this (by decide)
        · exact List.infix_cons_iff.mpr (Or.inr (ih true u halnum hi))
    · rw [if_neg hc] at h
      rcases List.infix_cons_iff.mp h with hp | hi
      · cases u with
        | nil => exact List.nil_infix
        | cons x xs =>
          have hx := List.cons_prefix_cons.mp hp
          have hxs := alnum_pref_normalize rest xs
            (fun d hd => halnum d (List.mem_cons_of_mem _ hd)) hx.2
          rw [hx.1]
          exact List.IsPrefix.isInfix (List.cons_prefix_cons.mpr ⟨rfl, hxs⟩)
      · exact List.infix_cons_iff.mpr (Or.inr (ih false u halnum hi))

/-- Every token stored for a document is a substring of the lowercased
original paragraph text. -/
theorem tokenize_token_sub (doc : String) (stop : List String) (t : String)
    (ht : t ∈ tokenize (trimSpace (normalizeWhitespace doc)) stop) :
    containsStr (lowerStr doc) t = true := by
  unfold tokenize at ht
  have ht2 := List.mem_dedup.mp ht
  have ht3 := (List.mem_filter.mp ht2).1
  obtain ⟨cs, hcs, hmk⟩ := List.mem_map.mp ht3
  have hinf : cs <:+: (lowerStr (trimSpace (normalizeWhitespace doc))).data := by
    simpa using wordTokensAux_inf _ false [] cs hcs
  have halnum : ∀ c ∈ cs, isAlnumCh c = true :=
    wordTokensAux_alnum _ false [] (by simp) cs hcs
  have hdata : (lowerStr (trimSpace (normalizeWhitespace doc))).data =
      trimClass isGoSpace (normalizeWhitespaceAux ((lowerStr doc).data) false) := by
    show (trimClass isGoSpace (normalizeWhitespaceAux doc.data false)).map lowerCh = _
    rw [map_lowerCh_trimClass, map_lowerCh_normalize]
    rfl
  rw [hdata] at hinf
  have hinf2 : cs <:+: normalizeWhitespaceAux ((lowerStr doc).data) false :=
    hinf.trans (trimClass_inf _ _)
  have hinf3 : cs <:+: (lowerStr doc).data :=
    alnum_inf_normalize _ false cs halnum hinf2
  have htd : t.data = cs := by rw [← hmk]
  unfold containsStr
  rw [htd]
  exact (listContainsSub_iff cs _).mpr hinf3

/-! ## Scenario B: the decline message and its apostrophe -/

/-- The ASCII-apostrophe spelling of the decline phrase. -/
def cantAnswerAscii : String :=
  String.mk ['c', 'a', 'n', asciiQuote, 't', ' ', 'a', 'n', 's', 'w', 'e', 'r']

/-- A corpus document that mentions neither `Nashville` nor `apps`. -/
def docNoNA : String := "Gen Z adoption of podcasts keeps growing strongly in many cities."

/-- The service of Scenario B: a real one-document index, default
threshold. -/
def svcNoNA : MessageService :=
  { index := some (fun q k => TopK (NewIndexFromStrings [docNoNA] []) q k), threshold := 0 }

/-- Counterexample to C4 as stated: for the query `Nashville apps`
against an index whose only document contains neither `Nashville` nor
`apps`, `retrieve` does decline with a nil score, but the reply does not
contain the ASCII-apostrophe substring `can't answer` (the code's message
uses the right single quotation mark). -/
theorem C4_ascii_apostrophe_counterexample :
    containsStr docNoNA "Nashville" = false ∧
    containsStr docNoNA "apps" = false ∧
    (retrieve svcNoNA "Nashville apps").2 = none ∧
    containsStr (retrieve svcNoNA "Nashville apps").1 cantAnswerAscii = false := by
  decide

/-- C4 as amended: against a one-document default-config index whose only
document contains neither `nashville` nor `apps` (case-insensitively, as
substrings), `retrieve` on the query `Nashville apps` declines — nil
score and the decline message — and the message contains the substring
`can’t answer` written with the right single quotation mark U+2019. -/
theorem C4_decline_scenario (doc : String) (thr : ℚ)
    (h1 : containsStr (lowerStr doc) "nashville" = false)
    (h2 : containsStr (lowerStr doc) "apps" = false) :
    retrieve { index := some (fun q k => TopK (NewIndexFromStrings [doc] []) q k),
               threshold := thr } "Nashville apps" = (declineMsg, none) ∧
    containsStr declineMsg "can’t answer" = true := by
  refine ⟨?_, by decide⟩
  have htk : ∀ q : String, tokenize q [] = ["nashville", "apps"] → ∀ k,
      TopK (NewIndexFromStrings [doc] []) q k = [] := by
    intro q hq k
    have hbuf : topkBuf (NewIndexFromStrings [doc] []) q = [] := by
      unfold topkBuf
      rw [List.filterMap_eq_nil]
      intro d hd
      obtain ⟨⟨raw, hraw, hrw⟩, htok, _⟩ := buildIndexAux_mem _ _ _ d hd
      have hraw2 : raw = doc := by simpa using hraw
      rw [hraw2] at hrw
      have hmiss : ∀ t : String, t ∈ d.tokens → containsStr (lowerStr doc) t = true := by
        intro t hmem
        rw [htok, hrw] at hmem
        exact tokenize_token_sub doc _ t hmem
      have hnil : overlapCount (tokenize q (NewIndexFromStrings [doc] []).cfg.stopwords)
          d.tokens = 0 := by
        rw [show (NewIndexFromStrings [doc] []).cfg.stopwords = [] from rfl, hq]
        unfold overlapCount
        have hn : d.tokens.contains "nashville" = false := by
          by_contra hcon
          have hmem : "nashville" ∈ d.tokens :=
            List.elem_iff.mp (by simpa using hcon)
          rw [hmiss "nashville" hmem] at h1
          exact Bool.noConfusion h1
        have ha : d.tokens.contains "apps" = false := by
          by_contra hcon
          have hmem : "apps" ∈ d.tokens :=
            List.elem_iff.mp (by simpa using hcon)
          rw [hmiss "apps" hmem] at h2
          exact Bool.noConfusion h2
        rw [List.filter_cons, List.filter_cons, hn, ha]
        simp
      unfold scoreDoc
      rw [hnil]
      simp
    unfold TopK
    by_cases hd0 : (NewIndexFromStrings [doc] []).docs.length = 0
    · rw [if_pos hd0]
    rw [if_neg hd0]
    by_cases htr : trimSpace q = ""
    · rw [if_pos htr]
    rw [if_neg htr]
    by_cases htq : (tokenize q (NewIndexFromStrings [doc] []).cfg.stopwords).length = 0
    · rw [if_pos htq]
    rw [if_neg htq]
    rw [if_pos (by rw [hbuf]; rfl)]
  have hres : retrieveResults
      (fun q k => TopK (NewIndexFromStrings [doc] []) q k) "Nashville apps" = [] := by
    unfold retrieveResults
    dsimp only
    rw [htk "Nashville apps" (by decide) 10, if_pos rfl, if_pos (by decide),
      htk (simplifyQuery "Nashville apps") (by decide) 10]
  simp [retrieve, hres]

/-- Witness for the amended C4 at a concrete document. -/
theorem C4_decline_scenario_witness :
    retrieve { index := some (fun q k => TopK (NewIndexFromStrings [docNoNA] []) q k),
               threshold := 0 } "Nashville apps" = (declineMsg, none) ∧
    containsStr declineMsg "can’t answer" = true :=
  C4_decline_scenario docNoNA 0 (by decide) (by decide)
